import Mathlib

/-
Verification of the MP-Model performance-allocation repository.

The development shallowly embeds the two Python source files
(`calc_daily_attribution.py` and `streamlit_app.py`).  Machine floats are
modelled as exact rationals; an IEEE NaN (or an infinity arising from a
division by zero) is modelled as `none : Option ℚ`.  A pandas skipna sum
treats a NaN term as contributing nothing, which the model renders with
`Option.getD 0`.  Dates are modelled as naturals ordered like calendar
dates; a price row or a weight snapshot is an association list keyed by
ticker, mirroring a pandas Series over a fixed column index.
-/

namespace MP

abbrev Ticker := String
abbrev Date := ℕ

/-- One rebalance snapshot: the parsed date and the target-weight Series
(ticker plus the CASH bucket, as in the pandas row `weights.loc[date]`). -/
abbrev WSnap := Date × List (Ticker × ℚ)

/-- The weight matrix produced by the normalizer: a fixed column universe
(`weights.columns`) and one row per rebalance date (`weights.index`). -/
structure WeightMatrix where
  cols : List Ticker
  rows : List WSnap
deriving DecidableEq, Repr

/-- The daily price matrix: `price_history.columns` and one row per trade
date.  A cell is `none` when the price is NaN; a ticker absent from a row's
association list also reads as NaN. -/
structure PriceHistory where
  cols : List Ticker
  rows : List (Date × List (Ticker × Option ℚ))
deriving DecidableEq, Repr

/-- Series lookup with a default, modelling `target_weights.get(t, 0.0)`. -/
def getW (w : List (Ticker × ℚ)) (t : Ticker) : ℚ :=
  (w.lookup t).getD 0

/-- Price lookup in one row, modelling `px[ticker]`; a missing key or a NaN
cell both read as `none`. -/
def rowPx (row : List (Ticker × Option ℚ)) (t : Ticker) : Option ℚ :=
  (row.lookup t).getD none

/-- Value of the holdings at one price row, modelling `(units * px).sum()`:
the pandas sum skips NaN terms, so a `none` price contributes nothing. -/
def holdingsValue (cols : List Ticker) (units : Ticker → ℚ) (px : Ticker → Option ℚ) : ℚ :=
  (cols.map (fun t => units t * (px t).getD 0)).sum

/-- Units bought for one ticker at a rebalance, modelling
`allocation / price if price and not np.isnan(price) else 0.0`
with `allocation = portfolio_value * weight`: a missing/NaN price (`none`)
or a zero price yields zero units, otherwise the quotient. -/
def unitsFor (preValue weight : ℚ) (price : Option ℚ) : ℚ :=
  match price with
  | none => 0
  | some p => if p = 0 then 0 else preValue * weight / p

/-- Apply one rebalance event (the body of the `while` loop at
calc_daily_attribution.py:197-207, also the initial purchase of the static
simulator at lines 241-249): cash becomes `pre * target cash weight` and
every overlapping ticker's units are recomputed from the pre-event value. -/
def applyEvent (cols : List Ticker) (units : Ticker → ℚ) (pre : ℚ)
    (tw : List (Ticker × ℚ)) (px : Ticker → Option ℚ) : (Ticker → ℚ) × ℚ :=
  (fun t => if t ∈ cols then unitsFor pre (getW tw t) (px t) else units t,
   pre * getW tw "CASH")

/-- The `while rebalance_idx < len(...) and date >= rebalance_dates[idx]`
loop: apply every pending event whose date is at or before the current
price-row date, threading units, cash and the count of events applied so
far (`rebalance_idx`).  The pre-event value is 100 for the very first event
of the run and the marked-to-market value otherwise.  Snapshots are read
positionally, which matches `weights.loc[target_date]` because the
normalizer's index has unique dates. -/
def stepEvents (cols : List Ticker) (px : Ticker → Option ℚ) (date : Date) :
    List WSnap → (Ticker → ℚ) → ℚ → ℕ → ((Ticker → ℚ) × ℚ × List WSnap × ℕ)
  | [], units, cash, n => (units, cash, [], n)
  | e :: rest, units, cash, n =>
    if e.1 ≤ date then
      let pre := if n = 0 then 100 else holdingsValue cols units px + cash
      let s := applyEvent cols units pre e.2 px
      stepEvents cols px date rest s.1 s.2 (n + 1)
    else (units, cash, e :: rest, n)

/-- One recorded row of the performance output before the index column is
added: `(date, portfolio_value, cash_balance)`. -/
structure PerfRow where
  date : Date
  value : ℚ
  cash : ℚ
deriving DecidableEq, Repr

/-- A realized-weight cell `units[t] * px[t] / portfolio_value`: NaN when
the price is NaN, and non-finite when the portfolio value is zero. -/
def weightEntry (u : ℚ) (p : Option ℚ) (v : ℚ) : Option ℚ :=
  match p with
  | none => none
  | some q => if v = 0 then none else some (u * q / v)

/-- The main date loop of `simulate_portfolio` (calc_daily_attribution.py:
195-213): at each price row first apply the due events, then record value
and cash and derive the realized-weight row. -/
def simLoop (cols : List Ticker) :
    List (Date × List (Ticker × Option ℚ)) → (Ticker → ℚ) → ℚ → List WSnap → ℕ →
      List PerfRow × List (List (Ticker × Option ℚ))
  | [], _, _, _, _ => ([], [])
  | r :: rest, units, cash, pending, n =>
    let px := rowPx r.2
    let s := stepEvents cols px r.1 pending units cash n
    let v := holdingsValue cols s.1 px + s.2.1
    let wrow := cols.map (fun t => (t, weightEntry (s.1 t) (px t) v))
    let tail := simLoop cols rest s.1 s.2.1 s.2.2.1 s.2.2.2
    (⟨r.1, v, s.2.1⟩ :: tail.1, wrow :: tail.2)

/-- Minimum of a date list, modelling `weights.index.min()`. -/
def minDate? : List Date → Option Date
  | [] => none
  | d :: ds => some (ds.foldl Nat.min d)

/-- The rebased index cell `value / first_value * 100`; a zero first value
gives a non-finite float (0/0 is NaN, x/0 is an infinity), hence `none`. -/
def rebaseIndex (v v0 : ℚ) : Option ℚ :=
  if v0 = 0 then none else some (v / v0 * 100)

/-- A full performance row once the `PortfolioIndex` column is added. -/
structure PerfRowI where
  date : Date
  value : ℚ
  cash : ℚ
  pindex : Option ℚ
deriving DecidableEq, Repr

def noOverlapMsg : String :=
  "No overlapping tickers between weights and price history."

def emptyFirstRowMsg : String :=
  "PortfolioValue has no first row (IndexError from .iloc[0])."

/-- The price rows the simulators iterate:
`price_history.loc[price_history.index >= weights.index.min()]`.  An empty
weight index gives a NaN minimum in pandas, so every comparison is False
and no row survives. -/
def selectRows (ph : PriceHistory) (m? : Option Date) :
    List (Date × List (Ticker × Option ℚ)) :=
  match m? with
  | none => []
  | some m => ph.rows.filter (fun r => decide (m ≤ r.1))

/-- The overlapping tickers `[c for c in weights-columns minus CASH if c in
price_history.columns]`, shared by both simulators. -/
def commonCols (wcols : List Ticker) (ph : PriceHistory) : List Ticker :=
  (wcols.filter (fun c => c ≠ "CASH")).filter (fun c => ph.cols.contains c)

/-- Dynamic-mode simulator, `simulate_portfolio` of
calc_daily_attribution.py (lines 179-222; streamlit_app.py:172-213 is the
same algorithm without the weight matrix).  Returns the performance rows
(with the rebased index column) and the daily realized-weight rows, or the
error the Python run would raise. -/
def simulate_portfolio (w : WeightMatrix) (ph : PriceHistory) :
    Except String (List PerfRowI × List (List (Ticker × Option ℚ))) :=
  let cols := commonCols w.cols ph
  if cols.isEmpty then .error noOverlapMsg
  else
    let rows := selectRows ph (minDate? (w.rows.map Prod.fst))
    let out := simLoop cols rows (fun _ => 0) 0 w.rows 0
    match out.1 with
    | [] => .error emptyFirstRowMsg
    | r0 :: _ =>
      .ok (out.1.map (fun r => ⟨r.date, r.value, r.cash, rebaseIndex r.value r0.value⟩),
           out.2)

def emptyWeightsMsg : String :=
  "Weights dataframe is empty."

def noOverlapStaticMsg : String :=
  "No overlapping tickers for static portfolio simulation."

def missingAnchorMsg : String :=
  "Price history missing the initial rebalance date."

/-- The buy-and-hold date loop of `simulate_static_portfolio`
(calc_daily_attribution.py:251-258): no events, record value/cash and the
realized-weight row at every selected price row. -/
def staticLoop (cols : List Ticker) :
    List (Date × List (Ticker × Option ℚ)) → (Ticker → ℚ) → ℚ →
      List PerfRow × List (List (Ticker × Option ℚ))
  | [], _, _ => ([], [])
  | r :: rest, units, cash =>
    let px := rowPx r.2
    let v := holdingsValue cols units px + cash
    let wrow := cols.map (fun t => (t, weightEntry (units t) (px t) v))
    let tail := staticLoop cols rest units cash
    (⟨r.1, v, cash⟩ :: tail.1, wrow :: tail.2)

/-- Static-mode simulator, `simulate_static_portfolio` of
calc_daily_attribution.py (lines 225-267): apply only the first snapshot
(`weights.iloc[0]`) at the anchor row `prices.loc[start_date]`, then hold.
`start_date not in prices.index` followed by `prices.loc[start_date]` is
modelled by one `find?` on the selected rows. -/
def simulate_static_portfolio (w : WeightMatrix) (ph : PriceHistory) :
    Except String (List PerfRowI × List (List (Ticker × Option ℚ))) :=
  match w.rows.head? with
  | none => .error emptyWeightsMsg
  | some iw =>
    let cols := commonCols w.cols ph
    if cols.isEmpty then .error noOverlapStaticMsg
    else
      let startDate? := minDate? (w.rows.map Prod.fst)
      let rows := selectRows ph startDate?
      match rows.find? (fun r => decide (some r.1 = startDate?)) with
      | none => .error missingAnchorMsg
      | some anchorRow =>
        let s := applyEvent cols (fun _ => 0) 100 iw.2 (rowPx anchorRow.2)
        let out := staticLoop cols rows s.1 s.2
        match out.1 with
        | [] => .error emptyFirstRowMsg
        | r0 :: _ =>
          .ok (out.1.map (fun r => ⟨r.date, r.value, r.cash, rebaseIndex r.value r0.value⟩),
               out.2)

/-- Day-over-day percent change of an always-finite value series, for the
`DailyReturn` column of the streamlit simulators: NaN on the first row,
non-finite when the previous value is zero. -/
def pctChangeVals : List ℚ → List (Option ℚ)
  | [] => []
  | v :: vs =>
    none :: (List.zip (v :: vs) vs).map
      (fun p => if p.1 = 0 then none else some ((p.2 - p.1) / p.1))

/-- A performance row of the streamlit app, which also carries the
`DailyReturn` column. -/
structure PerfRowApp where
  date : Date
  value : ℚ
  cash : ℚ
  pindex : Option ℚ
  dailyReturn : Option ℚ
deriving DecidableEq, Repr

/-- Static simulator of streamlit_app.py (lines 216-250).  Unlike the batch
version it raises nothing: an empty weight table, an empty ticker overlap
or a missing anchor date all return an empty DataFrame, modelled as `[]`. -/
def simulate_static_portfolio_app (w : WeightMatrix) (ph : PriceHistory) :
    List PerfRowApp :=
  match w.rows.head? with
  | none => []
  | some iw =>
    let cols := commonCols w.cols ph
    let startDate? := minDate? (w.rows.map Prod.fst)
    if cols.isEmpty || !(ph.rows.any (fun r => decide (some r.1 = startDate?))) then []
    else
      let rows := selectRows ph startDate?
      match rows.find? (fun r => decide (some r.1 = startDate?)) with
      | none => []
      | some anchorRow =>
        let s := applyEvent cols (fun _ => 0) 100 iw.2 (rowPx anchorRow.2)
        let out := staticLoop cols rows s.1 s.2
        match out.1 with
        | [] => []
        | r0 :: _ =>
          (out.1.zip (pctChangeVals (out.1.map PerfRow.value))).map
            (fun p => ⟨p.1.date, p.1.value, p.1.cash,
                       rebaseIndex p.1.value r0.value, p.2⟩)

/-! ## Weight Table Normalizer (`load_rebalance_weights`)

The Excel read and the date-label parsing are external collaborators; the
model starts from the parsed table: one identifier column and, per value
column, its parsed calendar date.  Cell values are plain rationals.  The
only `raise` in the source (`"Excel file must contain 'Ticker' column."`)
concerns the raw DataFrame shape, which the typed input makes impossible;
everything after it is total, which is itself the subject of claim C2. -/

/-- The raw spreadsheet table after parsing: the date of each value column
(in column order) and one identifier row with one cell per value column. -/
structure RawTable where
  labels : List Date
  rows : List (String × List ℚ)
deriving DecidableEq, Repr

/-- Whether the first list is an initial segment of the second. -/
def startsWithSeg {α : Type} [DecidableEq α] : List α → List α → Bool
  | [], _ => true
  | _ :: _, [] => false
  | a :: as, b :: bs => decide (a = b) && startsWithSeg as bs

/-- Whether the first list occurs as a contiguous segment of the second. -/
def hasSeg {α : Type} [DecidableEq α] (n : List α) : List α → Bool
  | [] => startsWithSeg n []
  | b :: bs => startsWithSeg n (b :: bs) || hasSeg n bs

/-- Case-insensitive substring test, modelling
`Series.str.contains(needle, case=False)`: the lower-cased needle against
the lower-cased character list of the identifier. -/
def strContainsLower (needle s : String) : Bool :=
  hasSeg needle.data (s.data.map Char.toLower)

/-- The ticker mask `str.fullmatch(r"[A-Z]{3}")`: exactly three characters,
each an ASCII capital letter (code points 65-90).  The regex is
case-sensitive. -/
def isUpper3 (s : String) : Bool :=
  s.data.length = 3 && s.data.all (fun c => 65 ≤ c.toNat && c.toNat ≤ 90)

/-- `df.melt(...)`: one `(identifier, date, weight)` triple per cell, value
column by value column (pandas stacks the value columns in order). -/
def melt (labels : List Date) (rows : List (String × List ℚ)) :
    List (String × Date × ℚ) :=
  (labels.enum.map (fun li =>
    rows.filterMap (fun row =>
      (row.2.get? li.1).map (fun v => (row.1, li.2, v))))).flatten

/-- Rows kept after discarding spreadsheet check-sum rows:
`df[~df["Ticker"].str.contains("total", case=False)]`. -/
def keptRows (t : RawTable) : List (String × List ℚ) :=
  t.rows.filter (fun row => !(strContainsLower "total" row.1))

def meltKept (t : RawTable) : List (String × Date × ℚ) :=
  melt t.labels (keptRows t)

/-- Character-wise upper-casing, the `Series.str.upper()` of the source. -/
def strUpper (s : String) : String :=
  ⟨s.data.map Char.toUpper⟩

/-- Triples routed to the ticker pivot (mask `isUpper3`), with the
`.str.upper()` of the source applied to the matched identifiers. -/
def tickerTriples (t : RawTable) : List (String × Date × ℚ) :=
  ((meltKept t).filter (fun x => isUpper3 x.1)).map (fun x => (strUpper x.1, x.2))

/-- Triples routed to the cash bucket (mask `contains("cash", case=False)`). -/
def cashTriples (t : RawTable) : List (String × Date × ℚ) :=
  (meltKept t).filter (fun x => strContainsLower "cash" x.1)

def insertLe {α : Type} (le : α → α → Bool) (x : α) : List α → List α
  | [] => [x]
  | y :: ys => if le x y then x :: y :: ys else y :: insertLe le x ys

def sortLe {α : Type} (le : α → α → Bool) (l : List α) : List α :=
  l.foldr (insertLe le) []

def dedupKeep {α : Type} [DecidableEq α] : List α → List α
  | [] => []
  | x :: xs => x :: (dedupKeep xs).filter (fun y => y ≠ x)

/-- Sorted unique values, as a pandas pivot index or column axis. -/
def uniqueSorted {α : Type} [DecidableEq α] (le : α → α → Bool) (l : List α) : List α :=
  sortLe le (dedupKeep l)

def natLe (a b : ℕ) : Bool := decide (a ≤ b)

def strLe (a b : String) : Bool := !(decide (b < a))

/-- One pivot cell with `aggfunc="first"` then `.fillna(0.0)`: the first
triple for the `(date, ticker)` pair in melt order, else weight 0. -/
def pivotCell (triples : List (String × Date × ℚ)) (d : Date) (c : String) : ℚ :=
  match triples.find? (fun x => decide (x.1 = c) && decide (x.2.1 = d)) with
  | none => 0
  | some x => x.2.2

/-- The sorted ticker column axis of the pivot. -/
def tickerColumns (t : RawTable) : List String :=
  uniqueSorted strLe ((tickerTriples t).map Prod.fst)

/-- The sorted date index of the pivot (`ticker_weights.index`); a date with
only cash rows has no pivot row, so it does not appear. -/
def weightDates (t : RawTable) : List Date :=
  uniqueSorted natLe ((tickerTriples t).map (fun x => x.2.1))

/-- The weight table before row-normalization: the ticker pivot with the
`CASH` column appended, where `weights["CASH"] = cash_weights` aligns the
per-date cash sums on the ticker index and `.fillna(0.0)` turns an absent
date into 0 (an empty sum). -/
def rawWeightTable (t : RawTable) : List (Date × List (String × ℚ)) :=
  (weightDates t).map (fun d =>
    (d, (tickerColumns t).map (fun c => (c, pivotCell (tickerTriples t) d c)) ++
        [("CASH",
          (((cashTriples t).filter (fun x => decide (x.2.1 = d))).map (fun x => x.2.2)).sum)]))

/-- Row-normalization `weights.div(weights.sum(axis=1), axis=0)`.  A zero
row sum makes every cell of the row non-finite in floats (0/0 is NaN and
x/0 an infinity), modelled as `none`; nothing is raised. -/
def normalizeRow (cells : List (String × ℚ)) : List (String × Option ℚ) :=
  let s := (cells.map Prod.snd).sum
  cells.map (fun c => (c.1, if s = 0 then none else some (c.2 / s)))

/-- The Weight Table Normalizer, `load_rebalance_weights` of
calc_daily_attribution.py:43-86 (identical in streamlit_app.py:58-103):
returns the normalized weight matrix and `active_tickers`, the non-CASH
columns.  The function is total: no zero-row-sum validation exists in the
source. -/
def load_rebalance_weights (t : RawTable) :
    List (Date × List (String × Option ℚ)) × List String :=
  ((rawWeightTable t).map (fun r => (r.1, normalizeRow r.2)), tickerColumns t)

/-! ## Attribution Engine (`main` of calc_daily_attribution.py, lines 284-340)

The model starts after the external alignment steps: all input matrices are
already on the dynamic simulator's date axis (the source's
`reindex(portfolio.index).ffill()` calls), held column-major as one series
per ticker.  A column missing from the price input reads as an all-NaN
series, which reproduces what the long-format `concat` union produces for a
ticker that has no price data.  Scalar columns are attached positionally,
which matches `reindex(result["TRADE_DATE"])` because trade dates are
unique. -/

abbrev Series := List (Option ℚ)

/-- NaN-propagating subtraction of float cells. -/
def optSub : Option ℚ → Option ℚ → Option ℚ
  | some a, some b => some (a - b)
  | _, _ => none

/-- NaN-propagating multiplication of float cells (IEEE has 0 * NaN = NaN). -/
def optMul : Option ℚ → Option ℚ → Option ℚ
  | some a, some b => some (a * b)
  | _, _ => none

def seriesSub (a b : Series) : Series := List.zipWith optSub a b

def seriesMul (a b : Series) : Series := List.zipWith optMul a b

/-- `pct_change()`: NaN on the first row, `(cur - prev) / prev` after; a NaN
operand or a zero previous value gives a non-finite cell.  Inputs are
forward-filled upstream, so NaN cells only lead a column. -/
def pctChange : Series → Series
  | [] => []
  | x :: xs =>
    none :: (List.zip (x :: xs) xs).map (fun p =>
      match p.1, p.2 with
      | some a, some b => if a = 0 then none else some ((b - a) / a)
      | _, _ => none)

/-- `expanding(min_periods=1).mean()`: mean of the non-NaN values seen so
far; NaN while no value has been seen. -/
def expandingMean (s : Series) : Series :=
  (List.range s.length).map (fun i =>
    let vals := (s.take (i + 1)).filterMap id
    if vals.length = 0 then none else some (vals.sum / (vals.length : ℚ)))

/-- `reindex(columns=all_tickers, fill_value=...)`: select the columns of
the target universe; an absent column becomes a constant `fill` series. -/
def reindexCols (fill : Option ℚ) (all : List Ticker) (nRows : ℕ)
    (m : List (Ticker × Series)) : List (Ticker × Series) :=
  all.map (fun t => (t, (m.lookup t).getD (List.replicate nRows fill)))

def colOf (m : List (Ticker × Series)) (nRows : ℕ) (t : Ticker) : Series :=
  (m.lookup t).getD (List.replicate nRows none)

/-- Daily market-cap-weighted benchmark weights (lines 290-295): forward
filled caps with `fillna(0.0)`, divided by the daily cap sum, the 0/0 of an
all-zero day filled back to 0. -/
def benchWeightCols (caps : List (Ticker × Series)) (nRows : ℕ) :
    List (Ticker × Series) :=
  let q := caps.map (fun c => (c.1, c.2.map (fun x => x.getD 0)))
  q.map (fun c =>
    (c.1, (List.range nRows).map (fun i =>
      let s := (q.map (fun col => (col.2.get? i).getD 0)).sum
      some (if s = 0 then 0 else ((c.2.get? i).getD 0) / s))))

def entryAt (s : Series) (i : ℕ) : Option ℚ :=
  (s.get? i).getD none

/-- One long-format ledger row (the persisted schema of § 6 of the spec). -/
structure LedgerRow where
  date : Date
  ticker : Ticker
  avgPortfolioWeightYTD : Option ℚ
  avgBenchmarkWeightYTD : Option ℚ
  activeWeightYTD : Option ℚ
  tickerReturn : Option ℚ
  activeReturn : Option ℚ
  attribution : Option ℚ
  avgBaselineWeightYTD : Option ℚ
  activeWeightVsOriginal : Option ℚ
  activeReturnVsOriginal : Option ℚ
  attributionVsOriginal : Option ℚ
  benchmarkReturn : Option ℚ
  baselineReturn : Option ℚ
deriving DecidableEq, Repr

/-- The aligned inputs of the attribution section of `main`. -/
structure AttrInputs where
  dates : List Date
  allTickers : List Ticker
  alignedPrices : List (Ticker × Series)
  portWeights : List (Ticker × Series)
  benchCaps : List (Ticker × Series)
  baselineWeights : List (Ticker × Series)
  vnindexVals : Series
  baselineValues : Series

/-- The attribution ledger of calc_daily_attribution.py:284-340: derive the
ten metric columns, stack them into one row per (date, ticker) with
`dropna=False`, attach the two scalar return columns, and finally
`dropna(subset=["Attribution"])`. -/
def attributionLedger (A : AttrInputs) : List LedgerRow :=
  let n := A.dates.length
  let priceCols := reindexCols none A.allTickers n A.alignedPrices
  let portW := reindexCols (some 0) A.allTickers n A.portWeights
  let benchW := reindexCols (some 0) A.allTickers n (benchWeightCols A.benchCaps n)
  let baseW := reindexCols (some 0) A.allTickers n A.baselineWeights
  let benchRet := pctChange A.vnindexVals
  let baseRet := pctChange A.baselineValues
  let mkRow := fun (i : ℕ) (d : Date) (t : Ticker) =>
    let tr := pctChange (colOf priceCols n t)
    let ap := expandingMean (colOf portW n t)
    let ab := expandingMean (colOf benchW n t)
    let abase := expandingMean (colOf baseW n t)
    let aw := seriesSub ap ab
    let awb := seriesSub ap abase
    let ar := seriesSub tr benchRet
    let arb := seriesSub tr baseRet
    ({ date := d, ticker := t,
       avgPortfolioWeightYTD := entryAt ap i,
       avgBenchmarkWeightYTD := entryAt ab i,
       activeWeightYTD := entryAt aw i,
       tickerReturn := entryAt tr i,
       activeReturn := entryAt ar i,
       attribution := entryAt (seriesMul aw ar) i,
       avgBaselineWeightYTD := entryAt abase i,
       activeWeightVsOriginal := entryAt awb i,
       activeReturnVsOriginal := entryAt arb i,
       attributionVsOriginal := entryAt (seriesMul awb arb) i,
       benchmarkReturn := entryAt benchRet i,
       baselineReturn := entryAt baseRet i } : LedgerRow)
  ((A.dates.enum.map (fun p => A.allTickers.map (fun t => mkRow p.1 p.2 t))).flatten).filter
    (fun r => r.attribution.isSome)

/-! ## Claim C1: event processing in dynamic mode -/

/-- The per-event state update of the `while` loop, spelled out: the
pre-event value is 100 for the very first event of the run and
`sum(units * px) + cash` afterwards; units are rebuilt for every overlapping
ticker from `pre * weight / price` and cash becomes `pre * cash-weight`. -/
def eventFold (cols : List Ticker) (px : Ticker → Option ℚ)
    (st : (Ticker → ℚ) × ℚ × ℕ) (e : WSnap) : (Ticker → ℚ) × ℚ × ℕ :=
  let pre := if st.2.2 = 0 then (100 : ℚ) else holdingsValue cols st.1 px + st.2.1
  (fun t => if t ∈ cols then unitsFor pre (getW e.2 t) (px t) else st.1 t,
   pre * getW e.2 "CASH", st.2.2 + 1)

/-- C1: at a price-matrix date, the `while` loop applies exactly the pending
rebalance events whose date is at or before the current date, in list (and,
by sortedness, chronological) order; the later events are deferred, never
skipped.  The resulting units, cash and event counter are the left fold of
the event formulas over the due events: pre-event value 100 for the very
first event and `sum(units * current price) + cash` for every later one;
post-event units `(pre-event value * target weight) / current price`
(zero on a missing/zero price) and cash `pre-event value * cash weight`. -/
theorem c1_pending_events_applied_in_order
    (cols : List Ticker) (px : Ticker → Option ℚ) (date : Date)
    (pending : List WSnap) (units : Ticker → ℚ) (cash : ℚ) (n : ℕ)
    (hsort : pending.Pairwise (fun a b => a.1 ≤ b.1)) :
    (stepEvents cols px date pending units cash n).2.2.1 =
        pending.filter (fun e => !decide (e.1 ≤ date)) ∧
      ((stepEvents cols px date pending units cash n).1,
        (stepEvents cols px date pending units cash n).2.1,
        (stepEvents cols px date pending units cash n).2.2.2) =
        (pending.filter (fun e => decide (e.1 ≤ date))).foldl
          (eventFold cols px) (units, cash, n) := by
  induction pending generalizing units cash n with
  | nil => simp [stepEvents]
  | cons e rest ih =>
    rcases List.pairwise_cons.mp hsort with ⟨hall, htail⟩
    by_cases h : e.1 ≤ date
    · have hstep : stepEvents cols px date (e :: rest) units cash n =
          stepEvents cols px date rest
            (fun t => if t ∈ cols then
                unitsFor (if n = 0 then (100 : ℚ)
                  else holdingsValue cols units px + cash) (getW e.2 t) (px t)
              else units t)
            ((if n = 0 then (100 : ℚ)
               else holdingsValue cols units px + cash) * getW e.2 "CASH")
            (n + 1) := by
        simp [stepEvents, h, applyEvent]
      rcases ih _ _ (n + 1) htail with ⟨ih1, ih2⟩
      refine ⟨?_, ?_⟩
      · rw [hstep, ih1]
        simp [h]
      · rw [hstep]
        have hfil : (e :: rest).filter (fun x => decide (x.1 ≤ date)) =
            e :: rest.filter (fun x => decide (x.1 ≤ date)) := by
          simp [h]
        rw [hfil, List.foldl_cons]
        exact ih2
    · have hnone : ∀ b ∈ rest, ¬ b.1 ≤ date := fun b hb hble =>
        h (le_trans (hall b hb) hble)
      have hstep : stepEvents cols px date (e :: rest) units cash n =
          (units, cash, e :: rest, n) := by
        simp [stepEvents, h]
      refine ⟨?_, ?_⟩
      · rw [hstep]
        have : (e :: rest).filter (fun e => !decide (e.1 ≤ date)) = e :: rest := by
          rw [List.filter_eq_self]
          intro a ha
          rcases List.mem_cons.mp ha with rfl | ha
          · simpa using h
          · simpa using hnone a ha
        exact this.symm
      · rw [hstep]
        have : (e :: rest).filter (fun e => decide (e.1 ≤ date)) = [] := by
          rw [List.filter_eq_nil_iff]
          intro a ha
          rcases List.mem_cons.mp ha with rfl | ha
          · simpa using h
          · simpa using hnone a ha
        rw [this]
        rfl

/-- Witness for C1: the characterization applied at a concrete sorted
pending list (one due event, one future event) at date 5. -/
theorem c1_witness :
    List.Pairwise (fun (a b : WSnap) => a.1 ≤ b.1)
        [(3, [("AAA", (1 : ℚ))]), (9, [("AAA", 1)])] ∧
      ((stepEvents ["AAA"] (fun _ => some 10) 5
            [(3, [("AAA", (1 : ℚ))]), (9, [("AAA", 1)])] (fun _ => 0) 0 0).2.2.1 =
          ([(3, [("AAA", (1 : ℚ))]), (9, [("AAA", 1)])] : List WSnap).filter
            (fun e => !decide (e.1 ≤ 5)) ∧
        ((stepEvents ["AAA"] (fun _ => some 10) 5
              [(3, [("AAA", (1 : ℚ))]), (9, [("AAA", 1)])] (fun _ => 0) 0 0).1,
          (stepEvents ["AAA"] (fun _ => some 10) 5
              [(3, [("AAA", (1 : ℚ))]), (9, [("AAA", 1)])] (fun _ => 0) 0 0).2.1,
          (stepEvents ["AAA"] (fun _ => some 10) 5
              [(3, [("AAA", (1 : ℚ))]), (9, [("AAA", 1)])] (fun _ => 0) 0 0).2.2.2) =
          (([(3, [("AAA", (1 : ℚ))]), (9, [("AAA", 1)])] : List WSnap).filter
              (fun e => decide (e.1 ≤ 5))).foldl
            (eventFold ["AAA"] (fun _ => some 10)) (fun _ => 0, 0, 0)) :=
  ⟨by decide,
    c1_pending_events_applied_in_order ["AAA"] (fun _ => some 10) 5
      [(3, [("AAA", (1 : ℚ))]), (9, [("AAA", 1)])] (fun _ => 0) 0 0 (by decide)⟩

/-! ## Claim C2: zero row sum in the normalizer -/

def c2RawTable : RawTable := ⟨[7], [("AAA", [0]), ("Cash", [0])]⟩

/-- C2 counterexample: a raw table whose only snapshot (date 7) has row sum
zero.  The normalizer does not fail: it returns the snapshot with every
weight cell NaN, refuting the claimed validation error. -/
theorem c2_counterexample :
    (rawWeightTable c2RawTable).map (fun r => (r.2.map Prod.snd).sum) = [0] ∧
      load_rebalance_weights c2RawTable =
        ([(7, [("AAA", none), ("CASH", none)])], ["AAA"]) := by
  refine ⟨?_, ?_⟩ <;>
    norm_num +decide [load_rebalance_weights, rawWeightTable, weightDates, tickerColumns,
      tickerTriples, cashTriples, meltKept, keptRows, melt, uniqueSorted, sortLe,
      insertLe, dedupKeep, natLe, strLe, pivotCell, normalizeRow, c2RawTable,
      List.enum, List.enumFrom, strUpper, strContainsLower, hasSeg, startsWithSeg,
      isUpper3, List.filterMap_cons, List.filterMap_nil, List.getElem?_cons_zero,
      List.getElem?_cons_succ, List.getElem?_nil]

/-- C2 amended: the normalizer never raises on a zero row sum; a snapshot
whose pre-normalization row sum is zero is emitted with every weight cell
NaN (`none`), exactly as the float division 0/0 would produce. -/
theorem c2_amended_zero_sum_emits_nan (t : RawTable) (d : Date)
    (cells : List (String × ℚ)) (hmem : (d, cells) ∈ rawWeightTable t)
    (hsum : (cells.map Prod.snd).sum = 0) :
    (d, cells.map (fun c => (c.1, (none : Option ℚ)))) ∈
      (load_rebalance_weights t).1 := by
  have hnorm : normalizeRow cells = cells.map (fun c => (c.1, (none : Option ℚ))) := by
    simp [normalizeRow, hsum]
  have h := List.mem_map_of_mem (fun r => (r.1, normalizeRow r.2)) hmem
  rw [← hnorm]
  exact h

def c2wRawTable : RawTable := ⟨[4], [("BBB", [0])]⟩

/-- Witness for the amended C2 at a concrete zero-sum table. -/
theorem c2_amended_witness :
    ((4 : Date), [("BBB", (0 : ℚ)), ("CASH", 0)]) ∈ rawWeightTable c2wRawTable ∧
      (([("BBB", (0 : ℚ)), ("CASH", 0)] : List (String × ℚ)).map Prod.snd).sum = 0 ∧
      ((4 : Date), [("BBB", (none : Option ℚ)), ("CASH", none)]) ∈
        (load_rebalance_weights c2wRawTable).1 :=
  ⟨by
      norm_num +decide [rawWeightTable, weightDates, tickerColumns, tickerTriples,
        cashTriples, meltKept, keptRows, melt, uniqueSorted, sortLe, insertLe,
        dedupKeep, natLe, strLe, pivotCell, c2wRawTable, List.enum, List.enumFrom,
        strUpper, strContainsLower, hasSeg, startsWithSeg, isUpper3,
        List.filterMap_cons, List.filterMap_nil, List.getElem?_cons_zero,
        List.getElem?_cons_succ, List.getElem?_nil],
    by norm_num,
    c2_amended_zero_sum_emits_nan c2wRawTable 4 [("BBB", (0 : ℚ)), ("CASH", 0)]
      (by
        norm_num +decide [rawWeightTable, weightDates, tickerColumns, tickerTriples,
          cashTriples, meltKept, keptRows, melt, uniqueSorted, sortLe, insertLe,
          dedupKeep, natLe, strLe, pivotCell, c2wRawTable, List.enum, List.enumFrom,
          strUpper, strContainsLower, hasSeg, startsWithSeg, isUpper3,
          List.filterMap_cons, List.filterMap_nil, List.getElem?_cons_zero,
          List.getElem?_cons_succ, List.getElem?_nil])
      (by norm_num)⟩

/-! ## Claim C9: identifier classification in the normalizer -/

def c9RawTable : RawTable := ⟨[7], [("abc", [1/2]), ("AAA", [1/2])]⟩

/-- C9 counterexample: "abc" is a 3-letter alphabetic identifier that does
not match cash.  The claim says it is upper-cased and kept as ticker "ABC";
the case-sensitive mask `[A-Z]{3}` drops it instead: no "ABC" column exists
and "AAA" absorbs the whole normalized weight. -/
theorem c9_counterexample :
    isUpper3 "abc" = false ∧
      strContainsLower "cash" "abc" = false ∧
      load_rebalance_weights c9RawTable =
        ([(7, [("AAA", some 1), ("CASH", some 0)])], ["AAA"]) ∧
      "ABC" ∉ (load_rebalance_weights c9RawTable).2 := by
  refine ⟨by decide, by decide, ?_, ?_⟩ <;>
    norm_num +decide [load_rebalance_weights, rawWeightTable, weightDates, tickerColumns,
      tickerTriples, cashTriples, meltKept, keptRows, melt, uniqueSorted, sortLe,
      insertLe, dedupKeep, natLe, strLe, pivotCell, normalizeRow, c9RawTable,
      List.enum, List.enumFrom, strUpper, strContainsLower, hasSeg, startsWithSeg,
      isUpper3, List.filterMap_cons, List.filterMap_nil, List.getElem?_cons_zero,
      List.getElem?_cons_succ, List.getElem?_nil]

theorem char_toUpper_fixed {c : Char} (h : c.toNat ≤ 90) : c.toUpper = c := by
  have hn : ¬(c.toNat ≥ 97 ∧ c.toNat ≤ 122) := by omega
  simp [Char.toUpper, hn]

theorem map_toUpper_fixed {l : List Char} (h : ∀ c ∈ l, c.toNat ≤ 90) :
    l.map Char.toUpper = l := by
  induction l with
  | nil => rfl
  | cons a as ih =>
    simp only [List.map_cons]
    rw [char_toUpper_fixed (h a (List.mem_cons_self a as)),
        ih (fun c hc => h c (List.mem_cons_of_mem a hc))]

theorem strUpper_fixed {s : String} (h : isUpper3 s = true) : strUpper s = s := by
  rcases s with ⟨l⟩
  simp only [isUpper3, Bool.and_eq_true, List.all_eq_true, decide_eq_true_eq] at h
  unfold strUpper
  simp only [String.data]
  rw [map_toUpper_fixed]
  intro c hc
  have := h.2 c hc
  simp only [Bool.and_eq_true, decide_eq_true_eq] at this
  exact this.2

theorem startsWithSeg_length {α : Type} [DecidableEq α] {n l : List α}
    (h : startsWithSeg n l = true) : n.length ≤ l.length := by
  induction n generalizing l with
  | nil => simp
  | cons a as ih =>
    cases l with
    | nil => simp [startsWithSeg] at h
    | cons b bs =>
      simp only [startsWithSeg, Bool.and_eq_true] at h
      have := ih h.2
      simp only [List.length_cons]
      omega

theorem hasSeg_length {α : Type} [DecidableEq α] {n l : List α}
    (h : hasSeg n l = true) : n.length ≤ l.length := by
  induction l with
  | nil =>
    cases n with
    | nil => simp
    | cons a as => simp [hasSeg, startsWithSeg] at h
  | cons b bs ih =>
    simp only [hasSeg, Bool.or_eq_true] at h
    rcases h with h | h
    · exact startsWithSeg_length h
    · have := ih h
      simp only [List.length_cons]
      omega

theorem upper3_not_cash {s : String} (h : isUpper3 s = true) :
    strContainsLower "cash" s = false := by
  cases hc : strContainsLower "cash" s with
  | false => rfl
  | true =>
    exfalso
    unfold strContainsLower at hc
    have hlen := hasSeg_length hc
    simp only [isUpper3, Bool.and_eq_true, decide_eq_true_eq] at h
    rw [List.length_map] at hlen
    rw [h.1] at hlen
    simp at hlen

theorem mem_insertLe {α : Type} {le : α → α → Bool} {x y : α} {l : List α}
    (h : y ∈ insertLe le x l) : y = x ∨ y ∈ l := by
  induction l with
  | nil => simpa [insertLe] using h
  | cons a as ih =>
    unfold insertLe at h
    by_cases hle : le x a
    · simp only [hle, if_true] at h
      rcases List.mem_cons.mp h with h | h
      · exact Or.inl h
      · exact Or.inr h
    · simp only [hle, if_false, Bool.false_eq_true] at h
      rcases List.mem_cons.mp h with h | h
      · exact Or.inr (h ▸ List.mem_cons_self a as)
      · rcases ih h with h | h
        · exact Or.inl h
        · exact Or.inr (List.mem_cons_of_mem a h)

theorem mem_sortLe {α : Type} {le : α → α → Bool} {y : α} {l : List α}
    (h : y ∈ sortLe le l) : y ∈ l := by
  induction l with
  | nil => simp [sortLe] at h
  | cons a as ih =>
    unfold sortLe at h
    simp only [List.foldr_cons] at h
    rcases mem_insertLe h with h | h
    · exact h ▸ List.mem_cons_self a as
    · exact List.mem_cons_of_mem a (ih h)

theorem mem_dedupKeep {α : Type} [DecidableEq α] {y : α} {l : List α}
    (h : y ∈ dedupKeep l) : y ∈ l := by
  induction l with
  | nil => simp [dedupKeep] at h
  | cons a as ih =>
    unfold dedupKeep at h
    rcases List.mem_cons.mp h with h | h
    · exact h ▸ List.mem_cons_self a as
    · exact List.mem_cons_of_mem a (ih (List.mem_of_mem_filter h))

theorem mem_uniqueSorted {α : Type} [DecidableEq α] {le : α → α → Bool}
    {y : α} {l : List α} (h : y ∈ uniqueSorted le l) : y ∈ l :=
  mem_dedupKeep (mem_sortLe h)

/-- Every ticker column the normalizer emits satisfies the uppercase
3-letter mask. -/
theorem active_tickers_upper3 (t : RawTable) :
    ∀ x ∈ (load_rebalance_weights t).2, isUpper3 x = true := by
  intro x hx
  have hx2 : x ∈ (tickerTriples t).map Prod.fst := mem_uniqueSorted hx
  rcases List.mem_map.mp hx2 with ⟨trip, htrip, rfl⟩
  unfold tickerTriples at htrip
  rcases List.mem_map.mp htrip with ⟨raw, hraw, rfl⟩
  have hmask := List.of_mem_filter hraw
  simp only at hmask
  rw [strUpper_fixed hmask]
  exact hmask

theorem filterMap_singleton_filter_nil {α β : Type} {p : β → Bool}
    {g : α → Option β} {r : α} (h : ∀ y, g r = some y → p y = false) :
    (([r].filterMap g).filter p) = [] := by
  cases hg : g r with
  | none => simp [List.filterMap_cons, hg]
  | some y => simp [List.filterMap_cons, hg, h y hg]

theorem melt_append_filter (p : String × Date × ℚ → Bool)
    (E : List (ℕ × Date)) (rows : List (String × List ℚ)) (r : String × List ℚ)
    (hp : ∀ d v, p (r.1, d, v) = false) :
    ((E.map (fun li => (rows ++ [r]).filterMap
        (fun row => (row.2.get? li.1).map (fun v => (row.1, li.2, v))))).flatten).filter p =
      ((E.map (fun li => rows.filterMap
        (fun row => (row.2.get? li.1).map (fun v => (row.1, li.2, v))))).flatten).filter p := by
  induction E with
  | nil => rfl
  | cons li es ih =>
    simp only [List.map_cons, List.flatten_cons, List.filter_append]
    rw [ih, List.filterMap_append, List.filter_append]
    have hz : (([r].filterMap
        (fun row => (row.2.get? li.1).map (fun v => (row.1, li.2, v)))).filter p) = [] := by
      apply filterMap_singleton_filter_nil
      intro y hy
      rcases Option.map_eq_some'.mp hy with ⟨v, hv, rfl⟩
      exact hp li.2 v
    rw [hz, List.append_nil]

theorem tickerTriples_drop (t : RawTable) (id0 : String) (cells : List ℚ)
    (hto : strContainsLower "total" id0 = false)
    (h1 : isUpper3 id0 = false) :
    tickerTriples ⟨t.labels, t.rows ++ [(id0, cells)]⟩ = tickerTriples t := by
  unfold tickerTriples meltKept keptRows melt
  simp only [List.filter_append, hto]
  have : ([((id0 : String), cells)].filter
      (fun row => !(strContainsLower "total" row.1))) = [(id0, cells)] := by
    simp [hto]
  rw [this]
  rw [melt_append_filter (fun x => isUpper3 x.1) _ _ _ (fun d v => h1)]

theorem cashTriples_drop (t : RawTable) (id0 : String) (cells : List ℚ)
    (hto : strContainsLower "total" id0 = false)
    (h2 : strContainsLower "cash" id0 = false) :
    cashTriples ⟨t.labels, t.rows ++ [(id0, cells)]⟩ = cashTriples t := by
  unfold cashTriples meltKept keptRows melt
  simp only [List.filter_append, hto]
  have : ([((id0 : String), cells)].filter
      (fun row => !(strContainsLower "total" row.1))) = [(id0, cells)] := by
    simp [hto]
  rw [this]
  rw [melt_append_filter (fun x => strContainsLower "cash" x.1) _ _ _ (fun d v => h2)]

/-- Appending a row whose identifier matches neither mask changes nothing
in the normalizer's output. -/
theorem dropped_row_no_op (t : RawTable) (id0 : String) (cells : List ℚ)
    (h1 : isUpper3 id0 = false) (h2 : strContainsLower "cash" id0 = false) :
    load_rebalance_weights ⟨t.labels, t.rows ++ [(id0, cells)]⟩ =
      load_rebalance_weights t := by
  cases hto : strContainsLower "total" id0 with
  | true =>
    have hk : keptRows ⟨t.labels, t.rows ++ [(id0, cells)]⟩ = keptRows t := by
      unfold keptRows
      simp [List.filter_append, hto]
    unfold load_rebalance_weights rawWeightTable weightDates tickerColumns
      tickerTriples cashTriples meltKept
    rw [hk]
  | false =>
    have ht := tickerTriples_drop t id0 cells hto h1
    have hc := cashTriples_drop t id0 cells hto h2
    unfold load_rebalance_weights rawWeightTable weightDates tickerColumns
    rw [ht, hc]

/-- C9 amended: identifiers containing "cash" case-insensitively go to the
cash bucket and identifiers of exactly three UPPERCASE letters are kept as
tickers (the subsequent `.str.upper()` is a no-op on them, and the two
masks are disjoint); any other identifier is dropped with no effect at all
on the output.  Lowercase 3-letter tokens are NOT upper-cased into
tickers. -/
theorem c9_amended_classification :
    (∀ s : String, isUpper3 s = true → strUpper s = s) ∧
      (∀ s : String, isUpper3 s = true → strContainsLower "cash" s = false) ∧
      (∀ t : RawTable, ∀ x ∈ (load_rebalance_weights t).2, isUpper3 x = true) ∧
      (∀ (t : RawTable) (id0 : String) (cells : List ℚ),
        isUpper3 id0 = false → strContainsLower "cash" id0 = false →
        load_rebalance_weights ⟨t.labels, t.rows ++ [(id0, cells)]⟩ =
          load_rebalance_weights t) :=
  ⟨fun _ h => strUpper_fixed h, fun _ h => upper3_not_cash h,
   active_tickers_upper3, dropped_row_no_op⟩

/-- Witness for the amended C9 at concrete identifiers and tables. -/
theorem c9_amended_witness :
    strUpper "QRS" = "QRS" ∧
      strContainsLower "cash" "QRS" = false ∧
      isUpper3 "AAA" = true ∧
      load_rebalance_weights ⟨[1], [("AAA", [1]), ("xy", [2])]⟩ =
        load_rebalance_weights ⟨[1], [("AAA", [1])]⟩ :=
  ⟨c9_amended_classification.1 "QRS" (by decide),
   c9_amended_classification.2.1 "QRS" (by decide),
   c9_amended_classification.2.2.1 ⟨[1], [("AAA", [1])]⟩ "AAA" (by decide),
   c9_amended_classification.2.2.2 ⟨[1], [("AAA", [1])]⟩ "xy" [2]
     (by decide) (by decide)⟩

/-! ## Shared simulator-output lemmas -/

/-- Boolean String equality is decidable propositional equality. -/
theorem beq_string_eq_decide (a b : String) : (a == b) = decide (a = b) := rfl

theorem simLoop_fst_dates (cols : List Ticker)
    (rows : List (Date × List (Ticker × Option ℚ))) (u : Ticker → ℚ) (c : ℚ)
    (p : List WSnap) (n : ℕ) :
    ((simLoop cols rows u c p n).1).map PerfRow.date = rows.map Prod.fst := by
  induction rows generalizing u c p n with
  | nil => rfl
  | cons r rest ih =>
    simp only [simLoop, List.map_cons]
    rw [ih]

theorem simLoop_snd_length (cols : List Ticker)
    (rows : List (Date × List (Ticker × Option ℚ))) (u : Ticker → ℚ) (c : ℚ)
    (p : List WSnap) (n : ℕ) :
    (simLoop cols rows u c p n).2.length = rows.length := by
  induction rows generalizing u c p n with
  | nil => rfl
  | cons r rest ih =>
    simp only [simLoop, List.length_cons]
    rw [ih]

theorem staticLoop_fst_dates (cols : List Ticker)
    (rows : List (Date × List (Ticker × Option ℚ))) (u : Ticker → ℚ) (c : ℚ) :
    ((staticLoop cols rows u c).1).map PerfRow.date = rows.map Prod.fst := by
  induction rows with
  | nil => rfl
  | cons r rest ih =>
    simp only [staticLoop, List.map_cons]
    rw [ih]

/-- Index rebasing of a record list headed by a row with nonzero value:
every produced index cell is the row's value over the first value times
100. -/
theorem rebase_output_property (recs : List PerfRow) (rr : PerfRow) (hv : rr.value ≠ 0) :
    ∀ r ∈ recs.map (fun r =>
        (⟨r.date, r.value, r.cash, rebaseIndex r.value rr.value⟩ : PerfRowI)),
      r.pindex = some (r.value / rr.value * 100) := by
  intro r hr
  rcases List.mem_map.mp hr with ⟨q, hq, rfl⟩
  unfold rebaseIndex
  rw [if_neg hv]

/-! ## Claim C3: missing anchor in static mode -/

def c3W : WeightMatrix := ⟨["AAA", "CASH"], [(5, [("AAA", 1)])]⟩

def c3P : PriceHistory := ⟨["AAA"], [(6, [("AAA", some 10)])]⟩

/-- C3 counterexample: the first rebalance date 5 is not a price row and
the ticker overlap is non-empty, yet the streamlit static simulator does
not fail: it returns an empty DataFrame. -/
theorem c3_counterexample :
    (5 : Date) ∉ c3P.rows.map Prod.fst ∧
      commonCols c3W.cols c3P = ["AAA"] ∧
      simulate_static_portfolio_app c3W c3P = [] := by
  refine ⟨by decide, by decide, ?_⟩
  norm_num +decide [simulate_static_portfolio_app, c3W, c3P, commonCols, minDate?,
    selectRows]

/-- C3 amended: when the first rebalance date is missing from the price
rows, the batch static simulator fails with the missing-anchor ValueError,
while the interactive (streamlit) static simulator instead returns an empty
result without raising. -/
theorem c3_amended_missing_anchor (w : WeightMatrix) (ph : PriceHistory)
    (m : Date) (hne : w.rows ≠ [])
    (hcols : commonCols w.cols ph ≠ [])
    (hmin : minDate? (w.rows.map Prod.fst) = some m)
    (hanchor : m ∉ ph.rows.map Prod.fst) :
    simulate_static_portfolio w ph = .error missingAnchorMsg ∧
      simulate_static_portfolio_app w ph = [] := by
  have hnotm : ∀ x : Date × List (Ticker × Option ℚ), x ∈ ph.rows → x.1 ≠ m := by
    intro x hx hx1
    exact hanchor (hx1 ▸ List.mem_map_of_mem Prod.fst hx)
  rcases hw : w.rows with _ | ⟨iw, wrest⟩
  · exact absurd hw hne
  rw [hw] at hmin
  constructor
  · unfold simulate_static_portfolio
    rw [hw]
    simp only [List.head?_cons]
    rw [if_neg (by simpa [List.isEmpty_eq_false] using hcols), hmin]
    have hfind : (selectRows ph (some m)).find?
        (fun r => decide (some r.1 = some m)) = none := by
      rw [List.find?_eq_none]
      intro x hx
      have hxr : x ∈ ph.rows := List.mem_of_mem_filter hx
      simp only [decide_eq_true_eq, Option.some.injEq]
      exact hnotm x hxr
    rw [hfind]
  · unfold simulate_static_portfolio_app
    rw [hw]
    simp only [List.head?_cons]
    rw [hmin]
    have hany : (ph.rows.any (fun r => decide (some r.1 = some m))) = false := by
      rw [List.any_eq_false]
      intro x hx
      simp only [decide_eq_true_eq, Option.some.injEq]
      exact hnotm x hx
    rw [hany]
    simp

def c3wW : WeightMatrix := ⟨["BBB", "CASH"], [(3, [("BBB", 1)])]⟩

def c3wP : PriceHistory := ⟨["BBB"], [(4, [("BBB", some 7)])]⟩

/-- Witness for the amended C3 at a concrete missing-anchor input. -/
theorem c3_amended_witness :
    simulate_static_portfolio c3wW c3wP = .error missingAnchorMsg ∧
      simulate_static_portfolio_app c3wW c3wP = [] :=
  c3_amended_missing_anchor c3wW c3wP 3 (by decide) (by decide) (by decide)
    (by decide)

/-! ## Claim C4: degraded prices and completion -/

def c4W : WeightMatrix := ⟨["AAA", "CASH"], [(5, [("AAA", 1)])]⟩

def c4P : PriceHistory := ⟨["AAA"], [(3, [("AAA", some 10)])]⟩

/-- C4 counterexample: the ticker overlap is non-empty (the claimed
structural precondition for dynamic mode), yet the dynamic simulation does
not complete: every price row predates the only snapshot, so the selected
rows are empty and `.iloc[0]` on the empty record frame raises an
IndexError. -/
theorem c4_counterexample :
    commonCols c4W.cols c4P = ["AAA"] ∧
      simulate_portfolio c4W c4P = .error emptyFirstRowMsg := by
  constructor
  · decide
  · norm_num +decide [simulate_portfolio, simLoop, commonCols, minDate?, selectRows,
      c4W, c4P]

/-- C4 amended: at any rebalance event a zero or missing/NaN price yields a
zero unit count for that ticker, with no exception and no division by zero
(both simulators share the event body `applyEvent`); the dynamic simulation
completes whenever the ticker overlap is non-empty AND at least one price
row falls on or after the earliest snapshot date, and the static simulation
completes whenever the weight table is non-empty, the overlap is non-empty
and the anchor date is a price row. -/
theorem c4_amended_degraded_price_and_completion :
    (∀ (cols : List Ticker) (units : Ticker → ℚ) (pre : ℚ)
        (tw : List (Ticker × ℚ)) (px : Ticker → Option ℚ) (t : Ticker),
      t ∈ cols → (px t = none ∨ px t = some 0) →
      (applyEvent cols units pre tw px).1 t = 0) ∧
      (∀ (w : WeightMatrix) (ph : PriceHistory),
        commonCols w.cols ph ≠ [] →
        selectRows ph (minDate? (w.rows.map Prod.fst)) ≠ [] →
        ∃ out, simulate_portfolio w ph = .ok out) ∧
      (∀ (w : WeightMatrix) (ph : PriceHistory) (m : Date),
        w.rows ≠ [] → commonCols w.cols ph ≠ [] →
        minDate? (w.rows.map Prod.fst) = some m → m ∈ ph.rows.map Prod.fst →
        ∃ out, simulate_static_portfolio w ph = .ok out) := by
  refine ⟨?_, ?_, ?_⟩
  · intro cols units pre tw px t ht hbad
    unfold applyEvent
    simp only [ht, if_true]
    rcases hbad with hbad | hbad <;> simp [unitsFor, hbad]
  · intro w ph hcols hrows
    unfold simulate_portfolio
    rw [if_neg (by simpa [List.isEmpty_eq_false] using hcols)]
    rcases hrec : (simLoop (commonCols w.cols ph)
        (selectRows ph (minDate? (w.rows.map Prod.fst))) (fun _ => 0) 0 w.rows 0).1 with
      _ | ⟨rr, tl⟩
    · exfalso
      have hd := simLoop_fst_dates (commonCols w.cols ph)
        (selectRows ph (minDate? (w.rows.map Prod.fst))) (fun _ => 0) 0 w.rows 0
      rw [hrec] at hd
      exact hrows (List.map_eq_nil_iff.mp hd.symm)
    · exact ⟨_, by simp only [hrec]; rfl⟩
  · intro w ph m hne hcols hmin hanchor
    rcases hw : w.rows with _ | ⟨iw, wrest⟩
    · exact absurd hw hne
    rw [hw] at hmin
    unfold simulate_static_portfolio
    rw [hw]
    simp only [List.head?_cons]
    rw [if_neg (by simpa [List.isEmpty_eq_false] using hcols), hmin]
    rcases List.mem_map.mp hanchor with ⟨prow, hprow, hpfst⟩
    have hmem : prow ∈ selectRows ph (some m) := by
      unfold selectRows
      exact List.mem_filter.mpr ⟨hprow, by simp [hpfst]⟩
    have hsome : ((selectRows ph (some m)).find?
        (fun r => decide (some r.1 = some m))).isSome := by
      rw [List.find?_isSome]
      exact ⟨prow, hmem, by simp [hpfst]⟩
    rcases hfind : (selectRows ph (some m)).find?
        (fun r => decide (some r.1 = some m)) with _ | anchorRow
    · rw [hfind] at hsome
      simp at hsome
    · rcases hsl : (staticLoop (commonCols w.cols ph) (selectRows ph (some m))
          (applyEvent (commonCols w.cols ph) (fun _ => 0) 100 iw.2
            (rowPx anchorRow.2)).1
          (applyEvent (commonCols w.cols ph) (fun _ => 0) 100 iw.2
            (rowPx anchorRow.2)).2).1 with _ | ⟨rr, tl⟩
      · exfalso
        have hd := staticLoop_fst_dates (commonCols w.cols ph) (selectRows ph (some m))
          (applyEvent (commonCols w.cols ph) (fun _ => 0) 100 iw.2
            (rowPx anchorRow.2)).1
          (applyEvent (commonCols w.cols ph) (fun _ => 0) 100 iw.2
            (rowPx anchorRow.2)).2
        rw [hsl] at hd
        have hnil : selectRows ph (some m) = [] := List.map_eq_nil_iff.mp hd.symm
        rw [hnil] at hmem
        exact absurd hmem (List.not_mem_nil prow)
      · exact ⟨_, by simp only [List.head?_cons, hmin, hfind, hsl]; rfl⟩

def c4wW : WeightMatrix := ⟨["AAA", "CASH"], [(1, [("AAA", 1)])]⟩

def c4wP : PriceHistory :=
  ⟨["AAA"], [(1, [("AAA", some 0)]), (2, [("AAA", none)])]⟩

/-- Witness for the amended C4: a zero price at the event row yields zero
units, and both simulators complete on an input whose only prices are zero
or NaN. -/
theorem c4_amended_witness :
    (applyEvent ["AAA"] (fun _ => 0) 100 [("AAA", (1 : ℚ))]
        (fun _ => some 0)).1 "AAA" = 0 ∧
      (∃ out, simulate_portfolio c4wW c4wP = .ok out) ∧
      (∃ out, simulate_static_portfolio c4wW c4wP = .ok out) :=
  ⟨c4_amended_degraded_price_and_completion.1 ["AAA"] (fun _ => 0) 100
      [("AAA", (1 : ℚ))] (fun _ => some 0) "AAA" (by decide) (Or.inr rfl),
   c4_amended_degraded_price_and_completion.2.1 c4wW c4wP (by decide) (by decide),
   c4_amended_degraded_price_and_completion.2.2 c4wW c4wP 1 (by decide) (by decide)
     (by decide) (by decide)⟩

/-- Inversion of a successful dynamic run: the record list is non-empty
and the output is its rebasing by the first value, next to the weight
rows. -/
theorem simulate_portfolio_ok_inv (w : WeightMatrix) (ph : PriceHistory)
    (out : List PerfRowI × List (List (Ticker × Option ℚ)))
    (hok : simulate_portfolio w ph = .ok out) :
    ∃ rr tl,
      (simLoop (commonCols w.cols ph)
        (selectRows ph (minDate? (w.rows.map Prod.fst))) (fun _ => 0) 0 w.rows 0).1 =
          rr :: tl ∧
      out = ((rr :: tl).map (fun r =>
          (⟨r.date, r.value, r.cash, rebaseIndex r.value rr.value⟩ : PerfRowI)),
        (simLoop (commonCols w.cols ph)
          (selectRows ph (minDate? (w.rows.map Prod.fst))) (fun _ => 0) 0 w.rows 0).2) := by
  unfold simulate_portfolio at hok
  by_cases hcols : (commonCols w.cols ph).isEmpty
  · simp only [hcols, if_true] at hok
    exact absurd hok (by simp)
  · simp only [hcols, Bool.false_eq_true, if_false] at hok
    rcases hrec : (simLoop (commonCols w.cols ph)
        (selectRows ph (minDate? (w.rows.map Prod.fst))) (fun _ => 0) 0 w.rows 0).1
      with _ | ⟨rr, tl⟩
    · simp only [hrec] at hok
      exact absurd hok (by simp)
    · simp only [hrec] at hok
      exact ⟨rr, tl, rfl, (Except.ok.inj hok).symm⟩

/-- Inversion of a successful static run. -/
theorem simulate_static_portfolio_ok_inv (w : WeightMatrix) (ph : PriceHistory)
    (out : List PerfRowI × List (List (Ticker × Option ℚ)))
    (hok : simulate_static_portfolio w ph = .ok out) :
    ∃ iw wrest anchorRow rr tl,
      w.rows = iw :: wrest ∧
      (selectRows ph (minDate? ((iw :: wrest).map Prod.fst))).find?
          (fun r => decide (some r.1 = minDate? ((iw :: wrest).map Prod.fst))) =
        some anchorRow ∧
      (staticLoop (commonCols w.cols ph)
          (selectRows ph (minDate? ((iw :: wrest).map Prod.fst)))
          (applyEvent (commonCols w.cols ph) (fun _ => 0) 100 iw.2
            (rowPx anchorRow.2)).1
          (applyEvent (commonCols w.cols ph) (fun _ => 0) 100 iw.2
            (rowPx anchorRow.2)).2).1 = rr :: tl ∧
      out = ((rr :: tl).map (fun r =>
          (⟨r.date, r.value, r.cash, rebaseIndex r.value rr.value⟩ : PerfRowI)),
        (staticLoop (commonCols w.cols ph)
          (selectRows ph (minDate? ((iw :: wrest).map Prod.fst)))
          (applyEvent (commonCols w.cols ph) (fun _ => 0) 100 iw.2
            (rowPx anchorRow.2)).1
          (applyEvent (commonCols w.cols ph) (fun _ => 0) 100 iw.2
            (rowPx anchorRow.2)).2).2) := by
  unfold simulate_static_portfolio at hok
  rcases hw : w.rows with _ | ⟨iw, wrest⟩
  · simp only [hw, List.head?_nil] at hok
    exact absurd hok (by simp)
  · simp only [hw, List.head?_cons] at hok
    by_cases hcols : (commonCols w.cols ph).isEmpty
    · simp only [hcols, if_true] at hok
      exact absurd hok (by simp)
    · simp only [hcols, Bool.false_eq_true, if_false] at hok
      rcases hfind : (selectRows ph (minDate? ((iw :: wrest).map Prod.fst))).find?
          (fun r => decide (some r.1 = minDate? ((iw :: wrest).map Prod.fst)))
        with _ | anchorRow
      · simp only [hfind] at hok
        exact absurd hok (by simp)
      · simp only [hfind] at hok
        rcases hsl : (staticLoop (commonCols w.cols ph)
            (selectRows ph (minDate? ((iw :: wrest).map Prod.fst)))
            (applyEvent (commonCols w.cols ph) (fun _ => 0) 100 iw.2
              (rowPx anchorRow.2)).1
            (applyEvent (commonCols w.cols ph) (fun _ => 0) 100 iw.2
              (rowPx anchorRow.2)).2).1 with _ | ⟨rr, tl⟩
        · simp only [hsl] at hok
          exact absurd hok (by simp)
        · simp only [hsl] at hok
          exact ⟨iw, wrest, anchorRow, rr, tl, rfl, hfind, hsl, (Except.ok.inj hok).symm⟩

/-! ## Claim C5: the rebased index at the first date -/

def c5W : WeightMatrix := ⟨["BBB", "CASH"], [(2, [("BBB", 1), ("CASH", 0)])]⟩

def c5P : PriceHistory :=
  ⟨["BBB"], [(2, [("BBB", none)]), (3, [("BBB", some 10)])]⟩

/-- C5 counterexample: a run whose only ticker has a NaN price on the
anchor date and whose cash target is zero produces a non-empty
PerformanceSeries with first portfolio value 0; its rebased index at the
first date is the float NaN (`none`), not 100.0. -/
theorem c5_counterexample :
    simulate_portfolio c5W c5P =
        .ok ([⟨2, 0, 0, none⟩, ⟨3, 0, 0, none⟩],
          [[("BBB", none)], [("BBB", none)]]) ∧
      (none : Option ℚ) ≠ some (100 : ℚ) := by
  constructor
  · norm_num +decide [simulate_portfolio, simLoop, stepEvents, applyEvent, unitsFor,
      holdingsValue, getW, rowPx, weightEntry, rebaseIndex, commonCols, minDate?,
      selectRows, c5W, c5P, List.lookup, beq_string_eq_decide]
  · decide

/-- C5 amended: in both simulators, whenever the run returns a non-empty
PerformanceSeries whose first portfolio value is nonzero, the rebased index
is exactly 100 at the first date and at every date equals the portfolio
value divided by the first value times 100; with a zero first value the
source instead emits non-finite floats (the counterexample). -/
theorem c5_amended_index_rebasing (w : WeightMatrix) (ph : PriceHistory) :
    (∀ out r0, simulate_portfolio w ph = .ok out → out.1.head? = some r0 →
      r0.value ≠ 0 →
      r0.pindex = some 100 ∧
        ∀ r ∈ out.1, r.pindex = some (r.value / r0.value * 100)) ∧
      (∀ out r0, simulate_static_portfolio w ph = .ok out →
        out.1.head? = some r0 → r0.value ≠ 0 →
        r0.pindex = some 100 ∧
          ∀ r ∈ out.1, r.pindex = some (r.value / r0.value * 100)) := by
  constructor
  · intro out r0 hok hhead hv
    rcases simulate_portfolio_ok_inv w ph out hok with ⟨rr, tl, hrec, hout⟩
    have hout1 : out.1 = (rr :: tl).map (fun r =>
        (⟨r.date, r.value, r.cash, rebaseIndex r.value rr.value⟩ : PerfRowI)) := by
      rw [hout]
    rw [hout1] at hhead
    simp only [List.map_cons, List.head?_cons, Option.some.injEq] at hhead
    have hval : r0.value = rr.value := by rw [← hhead]
    have hv0 : rr.value ≠ 0 := hval ▸ hv
    constructor
    · rw [← hhead]
      show rebaseIndex rr.value rr.value = some 100
      unfold rebaseIndex
      rw [if_neg hv0, div_self hv0, one_mul]
    · intro r hr
      rw [hout1] at hr
      rw [hval]
      exact rebase_output_property (rr :: tl) rr hv0 r hr
  · intro out r0 hok hhead hv
    rcases simulate_static_portfolio_ok_inv w ph out hok with
      ⟨iw, wrest, anchorRow, rr, tl, hw, hfind, hsl, hout⟩
    have hout1 : out.1 = (rr :: tl).map (fun r =>
        (⟨r.date, r.value, r.cash, rebaseIndex r.value rr.value⟩ : PerfRowI)) := by
      rw [hout]
    rw [hout1] at hhead
    simp only [List.map_cons, List.head?_cons, Option.some.injEq] at hhead
    have hval : r0.value = rr.value := by rw [← hhead]
    have hv0 : rr.value ≠ 0 := hval ▸ hv
    constructor
    · rw [← hhead]
      show rebaseIndex rr.value rr.value = some 100
      unfold rebaseIndex
      rw [if_neg hv0, div_self hv0, one_mul]
    · intro r hr
      rw [hout1] at hr
      rw [hval]
      exact rebase_output_property (rr :: tl) rr hv0 r hr

def c5wW : WeightMatrix := ⟨["AAA", "CASH"], [(1, [("AAA", 1)])]⟩

def c5wP : PriceHistory :=
  ⟨["AAA"], [(1, [("AAA", some 10)]), (2, [("AAA", some 20)])]⟩

/-- Witness for the amended C5 at a concrete run with nonzero first value:
the index starts at 100 and doubles when the price doubles. -/
theorem c5_amended_witness :
    simulate_portfolio c5wW c5wP =
        .ok ([⟨1, 100, 0, some 100⟩, ⟨2, 200, 0, some 200⟩],
          [[("AAA", some 1)], [("AAA", some 1)]]) ∧
      ((⟨1, 100, 0, some 100⟩ : PerfRowI).pindex = some 100 ∧
        ∀ r ∈ [(⟨1, 100, 0, some 100⟩ : PerfRowI), ⟨2, 200, 0, some 200⟩],
          r.pindex = some (r.value / (⟨1, 100, 0, some 100⟩ : PerfRowI).value * 100)) := by
  have hsim : simulate_portfolio c5wW c5wP =
      .ok ([⟨1, 100, 0, some 100⟩, ⟨2, 200, 0, some 200⟩],
        [[("AAA", some 1)], [("AAA", some 1)]]) := by
    norm_num +decide [simulate_portfolio, simLoop, stepEvents, applyEvent, unitsFor,
      holdingsValue, getW, rowPx, weightEntry, rebaseIndex, commonCols, minDate?,
      selectRows, c5wW, c5wP, List.lookup, beq_string_eq_decide]
  exact ⟨hsim,
    (c5_amended_index_rebasing c5wW c5wP).1
      ([⟨1, 100, 0, some 100⟩, ⟨2, 200, 0, some 200⟩],
        [[("AAA", some 1)], [("AAA", some 1)]])
      ⟨1, 100, 0, some 100⟩ hsim rfl (by norm_num)⟩

/-! ## Claim C10: the output date axis of dynamic mode -/

/-- C10: a successful dynamic run is indexed by exactly the price-matrix
rows whose date is on or after the earliest snapshot date, in order, with
one realized-weight row per performance row; price rows strictly before the
first snapshot date never appear. -/
theorem c10_output_date_axis (w : WeightMatrix) (ph : PriceHistory) (m : Date)
    (out : List PerfRowI × List (List (Ticker × Option ℚ)))
    (hmin : minDate? (w.rows.map Prod.fst) = some m)
    (hok : simulate_portfolio w ph = .ok out) :
    out.1.map PerfRowI.date =
        (ph.rows.map Prod.fst).filter (fun d => decide (m ≤ d)) ∧
      (∀ r ∈ out.1, m ≤ r.date) ∧
      out.2.length = out.1.length := by
  rcases simulate_portfolio_ok_inv w ph out hok with ⟨rr, tl, hrec, hout⟩
  have hdates := simLoop_fst_dates (commonCols w.cols ph)
    (selectRows ph (minDate? (w.rows.map Prod.fst))) (fun _ => 0) 0 w.rows 0
  have hlen2 := simLoop_snd_length (commonCols w.cols ph)
    (selectRows ph (minDate? (w.rows.map Prod.fst))) (fun _ => 0) 0 w.rows 0
  have hout1 : out.1 = (rr :: tl).map (fun r =>
      (⟨r.date, r.value, r.cash, rebaseIndex r.value rr.value⟩ : PerfRowI)) := by
    rw [hout]
  have hout2 : out.2 = (simLoop (commonCols w.cols ph)
      (selectRows ph (minDate? (w.rows.map Prod.fst))) (fun _ => 0) 0 w.rows 0).2 := by
    rw [hout]
  have hd1 : out.1.map PerfRowI.date = (rr :: tl).map PerfRow.date := by
    rw [hout1, List.map_map]
    rfl
  have hml : out.1.map PerfRowI.date = (selectRows ph (some m)).map Prod.fst := by
    rw [hd1, ← hrec, hdates, hmin]
  have hfilter : (selectRows ph (some m)).map Prod.fst =
      (ph.rows.map Prod.fst).filter (fun d => decide (m ≤ d)) := by
    unfold selectRows
    rw [List.filter_map]
    rfl
  refine ⟨hml.trans hfilter, ?_, ?_⟩
  · intro r hr
    have hmem : r.date ∈ out.1.map PerfRowI.date := List.mem_map_of_mem PerfRowI.date hr
    rw [hml.trans hfilter] at hmem
    exact of_decide_eq_true ((List.mem_filter.mp hmem).2)
  · rw [hout2, hlen2, hout1, List.length_map]
    have hlen1 := congrArg List.length hdates
    rw [hrec] at hlen1
    rw [List.length_map, List.length_map] at hlen1
    exact hlen1.symm

def c10W : WeightMatrix := ⟨["AAA", "CASH"], [(3, [("AAA", 1)])]⟩

def c10P : PriceHistory :=
  ⟨["AAA"], [(2, [("AAA", some 5)]), (3, [("AAA", some 10)]), (4, [("AAA", some 20)])]⟩

def c10Out : List PerfRowI × List (List (Ticker × Option ℚ)) :=
  ([⟨3, 100, 0, some 100⟩, ⟨4, 200, 0, some 200⟩],
   [[("AAA", some 1)], [("AAA", some 1)]])

/-- Witness for C10: the price row at date 2 (before the snapshot at 3) is
absent from the output; rows at 3 and 4 are exactly the output axis. -/
theorem c10_witness :
    simulate_portfolio c10W c10P = .ok c10Out ∧
      (c10Out.1.map PerfRowI.date =
          (c10P.rows.map Prod.fst).filter (fun d => decide ((3 : Date) ≤ d)) ∧
        (∀ r ∈ c10Out.1, (3 : Date) ≤ r.date) ∧
        c10Out.2.length = c10Out.1.length) := by
  have hsim : simulate_portfolio c10W c10P = .ok c10Out := by
    norm_num +decide [simulate_portfolio, simLoop, stepEvents, applyEvent, unitsFor,
      holdingsValue, getW, rowPx, weightEntry, rebaseIndex, commonCols, minDate?,
      selectRows, c10W, c10P, c10Out, List.lookup, beq_string_eq_decide]
  exact ⟨hsim, c10_output_date_axis c10W c10P 3 c10Out (by decide) hsim⟩

/-! ## Claim C8: the attribution ledger drops undefined rows -/

theorem entryAt_pctChange_zero (s : Series) : entryAt (pctChange s) 0 = none := by
  cases s with
  | nil => rfl
  | cons x xs => rfl

theorem entryAt_seriesSub_left_none (a b : Series) (h : entryAt a 0 = none) :
    entryAt (seriesSub a b) 0 = none := by
  cases a with
  | nil => rfl
  | cons a0 a' =>
    cases b with
    | nil => rfl
    | cons b0 b' =>
      have ha0 : a0 = none := h
      simp only [seriesSub, List.zipWith_cons_cons, entryAt, List.get?_cons_zero,
        Option.getD_some, ha0]
      rfl

theorem entryAt_seriesMul_right_none (a b : Series) (h : entryAt b 0 = none) :
    entryAt (seriesMul a b) 0 = none := by
  cases a with
  | nil => rfl
  | cons a0 a' =>
    cases b with
    | nil => rfl
    | cons b0 b' =>
      have hb0 : b0 = none := h
      simp only [seriesMul, List.zipWith_cons_cons, entryAt, List.get?_cons_zero,
        Option.getD_some, hb0]
      cases a0 <;> rfl

/-- The Attribution cell of the positionally first date is always NaN: the
day-over-day ticker return underlying it is undefined there. -/
theorem attribution_entry_zero_none (aw tr b : Series) :
    entryAt (seriesMul aw (seriesSub (pctChange tr) b)) 0 = none :=
  entryAt_seriesMul_right_none _ _
    (entryAt_seriesSub_left_none _ _ (entryAt_pctChange_zero tr))

/-- C8: every row of the final attribution ledger has a defined Attribution
value, and (for strictly increasing dates) no row of the very first date
survives the `dropna(subset=["Attribution"])`: its Attribution is NaN
because the day-over-day returns are undefined on the first date. -/
theorem c8_ledger_defined_and_first_date_absent (A : AttrInputs) (d0 : Date)
    (hd : A.dates.head? = some d0)
    (hsort : A.dates.Pairwise (fun a b => a < b)) :
    ∀ row ∈ attributionLedger A,
      row.attribution.isSome = true ∧ row.date ≠ d0 := by
  intro row hrow
  unfold attributionLedger at hrow
  rcases List.mem_filter.mp hrow with ⟨hmem, hsome⟩
  refine ⟨hsome, ?_⟩
  rcases List.mem_flatten.mp hmem with ⟨block, hblock, hrowblock⟩
  rcases List.mem_map.mp hblock with ⟨p, hp, rfl⟩
  rcases List.mem_map.mp hrowblock with ⟨t, ht, hrowt⟩
  have hget : A.dates[p.1]? = some p.2 := List.mem_enum_iff_getElem?.mp hp
  have hdate : row.date = p.2 := by rw [← hrowt]
  have hattr : row.attribution = entryAt (seriesMul
      (seriesSub (expandingMean (colOf (reindexCols (some 0) A.allTickers
          A.dates.length A.portWeights) A.dates.length t))
        (expandingMean (colOf (reindexCols (some 0) A.allTickers A.dates.length
          (benchWeightCols A.benchCaps A.dates.length)) A.dates.length t)))
      (seriesSub (pctChange (colOf (reindexCols none A.allTickers A.dates.length
          A.alignedPrices) A.dates.length t))
        (pctChange A.vnindexVals))) p.1 := by
    rw [← hrowt]
  rcases Nat.eq_zero_or_pos p.1 with h0 | hpos
  · exfalso
    rw [hattr, h0, attribution_entry_zero_none] at hsome
    simp at hsome
  · rw [hdate]
    intro heq
    rcases List.getElem?_eq_some_iff.mp hget with ⟨hlt, hgetv⟩
    have hd0 : A.dates[0]? = some d0 := by
      rw [← List.head?_eq_getElem?]
      exact hd
    rcases List.getElem?_eq_some_iff.mp hd0 with ⟨hlen0, hgetel⟩
    have hpair := List.pairwise_iff_getElem.mp hsort 0 p.1 hlen0 hlt hpos
    rw [hgetv, hgetel, heq] at hpair
    exact lt_irrefl d0 hpair

def c8A : AttrInputs :=
  ⟨[10, 11], ["AAA"], [("AAA", [some 5, some 6])], [("AAA", [some 1, some 1])],
   [("AAA", [some 3, some 3])], [("AAA", [some 1, some 1])],
   [some 100, some 101], [some 100, some 102]⟩

/-- Witness for C8 on a concrete two-date input: every surviving ledger row
has a defined Attribution and does not carry the first date 10. -/
theorem c8_witness :
    ((attributionLedger c8A).all
      (fun row => row.attribution.isSome && decide (row.date ≠ (10 : Date)))) = true := by
  rw [List.all_eq_true]
  intro row hrow
  have h := c8_ledger_defined_and_first_date_absent c8A 10 (by decide) (by decide)
    row hrow
  simp [h.1, h.2]

/-! ## Claim C7: single-snapshot static/dynamic equivalence -/

/-- With no pending events the dynamic date loop is the buy-and-hold
loop. -/
theorem simLoop_no_pending (cols : List Ticker)
    (rows : List (Date × List (Ticker × Option ℚ))) (u : Ticker → ℚ) (c : ℚ)
    (n : ℕ) :
    simLoop cols rows u c [] n = staticLoop cols rows u c := by
  induction rows generalizing n with
  | nil => rfl
  | cons r rest ih =>
    simp only [simLoop, staticLoop, stepEvents]
    rw [ih]

/-- A dynamic run over rows headed by the anchor row, with a single pending
snapshot dated at that row, applies the event there (pre-event value 100)
and then holds: it is the static loop started from the purchased state. -/
theorem simLoop_single_event (cols : List Ticker)
    (row0 : Date × List (Ticker × Option ℚ))
    (rest : List (Date × List (Ticker × Option ℚ)))
    (d0 : Date) (snap : List (Ticker × ℚ)) (hrow0 : row0.1 = d0) :
    simLoop cols (row0 :: rest) (fun _ => 0) 0 [(d0, snap)] 0 =
      staticLoop cols (row0 :: rest)
        (applyEvent cols (fun _ => 0) 100 snap (rowPx row0.2)).1
        (applyEvent cols (fun _ => 0) 100 snap (rowPx row0.2)).2 := by
  have hstep : stepEvents cols (rowPx row0.2) row0.1 [(d0, snap)] (fun _ => 0) 0 0 =
      ((applyEvent cols (fun _ => 0) 100 snap (rowPx row0.2)).1,
       (applyEvent cols (fun _ => 0) 100 snap (rowPx row0.2)).2, [], 1) := by
    simp only [stepEvents]
    rw [if_pos (by simp [hrow0])]
    simp
  simp only [simLoop, staticLoop, hstep]
  rw [simLoop_no_pending]

/-- The first selected price row is exactly the anchor row when the price
dates are strictly increasing and the anchor date is present. -/
theorem filter_ge_head {l : List (Date × List (Ticker × Option ℚ))} {d0 : Date}
    (hsorted : List.Pairwise (fun a b => a < b) (l.map Prod.fst))
    (hanchor : d0 ∈ l.map Prod.fst) :
    ∃ row0 rest, l.filter (fun r => decide (d0 ≤ r.1)) = row0 :: rest ∧
      row0.1 = d0 := by
  induction l with
  | nil => simp at hanchor
  | cons r l' ih =>
    rw [List.map_cons, List.pairwise_cons] at hsorted
    rcases hsorted with ⟨hall, htail⟩
    rw [List.map_cons, List.mem_cons] at hanchor
    by_cases hr : r.1 = d0
    · refine ⟨r, l'.filter (fun r => decide (d0 ≤ r.1)), ?_, hr⟩
      rw [List.filter_cons, if_pos (by simp [hr])]
    · have hd0' : d0 ∈ l'.map Prod.fst := by
        rcases hanchor with h | h
        · exact absurd h.symm hr
        · exact h
      have hlt : r.1 < d0 := hall d0 hd0'
      have hnle : ¬ (decide (d0 ≤ r.1) = true) := by
        simp only [decide_eq_true_eq]
        exact not_le.mpr hlt
      rw [List.filter_cons, if_neg hnle]
      exact ih htail hd0'

/-- C7: with exactly one snapshot whose date is a price row (price dates
strictly increasing, non-empty overlap), static-mode and dynamic-mode
simulation produce the same PerformanceSeries: the same portfolio value,
cash balance and rebased index at every date.  In fact the two runs return
identical outputs, weight rows included. -/
theorem c7_single_snapshot_equivalence (w : WeightMatrix) (ph : PriceHistory)
    (d0 : Date) (snap : List (Ticker × ℚ))
    (hw : w.rows = [(d0, snap)])
    (hsorted : List.Pairwise (fun a b => a < b) (ph.rows.map Prod.fst))
    (hanchor : d0 ∈ ph.rows.map Prod.fst)
    (hcols : commonCols w.cols ph ≠ []) :
    Except.map Prod.fst (simulate_portfolio w ph) =
      Except.map Prod.fst (simulate_static_portfolio w ph) := by
  have hie : (commonCols w.cols ph).isEmpty = false := by
    simp [List.isEmpty_eq_false, hcols]
  rcases filter_ge_head hsorted hanchor with ⟨row0, rest, hfilter, hrow0⟩
  have hsel : selectRows ph (some d0) = row0 :: rest := by
    unfold selectRows
    exact hfilter
  have hfind : (row0 :: rest).find? (fun r => decide (some r.1 = some d0)) =
      some row0 := by
    apply List.find?_cons_of_pos
    simp [hrow0]
  have heq : simulate_portfolio w ph = simulate_static_portfolio w ph := by
    unfold simulate_portfolio simulate_static_portfolio
    simp only [hw, List.head?_cons, hie, Bool.false_eq_true, if_false,
      List.map_cons, List.map_nil, minDate?, List.foldl_nil, hsel, hfind,
      simLoop_single_event (commonCols w.cols ph) row0 rest d0 snap hrow0]
  rw [heq]

def c7W : WeightMatrix :=
  ⟨["AAA", "BBB", "CASH"], [(1, [("AAA", 3/5), ("BBB", 2/5), ("CASH", 0)])]⟩

def c7P : PriceHistory :=
  ⟨["AAA", "BBB"],
   [(1, [("AAA", some 10), ("BBB", some 20)]),
    (2, [("AAA", some 10), ("BBB", some 20)]),
    (3, [("AAA", some 10), ("BBB", some 20)])]⟩

/-- Witness for C7 on the spec's own scenario (60/40 over two tickers,
flat prices for three days). -/
theorem c7_witness :
    Except.map Prod.fst (simulate_portfolio c7W c7P) =
      Except.map Prod.fst (simulate_static_portfolio c7W c7P) :=
  c7_single_snapshot_equivalence c7W c7P 1 [("AAA", 3/5), ("BBB", 2/5), ("CASH", 0)]
    rfl (by decide) (by decide) (by decide)

/-! ## Claim C6: realized weights sum to one with cash as residual -/

/-- Nonnegative units vector. -/
def UnitsNonneg (units : Ticker → ℚ) : Prop := ∀ t, 0 ≤ units t

/-- Nonnegative target weights in one snapshot. -/
def SnapNonneg (s : WSnap) : Prop := ∀ e ∈ s.2, 0 ≤ e.2

/-- Nonnegative defined prices in one row lookup. -/
def PxNonneg (px : Ticker → Option ℚ) : Prop := ∀ t q, px t = some q → 0 ≤ q

theorem lookup_some_mem {β : Type} {l : List (Ticker × β)} {t : Ticker} {v : β}
    (h : l.lookup t = some v) : ∃ k, (k, v) ∈ l := by
  induction l with
  | nil => simp [List.lookup] at h
  | cons e l' ih =>
    obtain ⟨k, b⟩ := e
    rw [List.lookup] at h
    cases hkb : (t == k) with
    | true =>
      rw [hkb] at h
      simp only [Option.some.injEq] at h
      exact ⟨k, by rw [← h]; exact List.mem_cons_self _ _⟩
    | false =>
      rw [hkb] at h
      rcases ih h with ⟨k', hk'⟩
      exact ⟨k', List.mem_cons_of_mem _ hk'⟩

theorem getW_nonneg {s : List (Ticker × ℚ)} {t : Ticker}
    (h : ∀ e ∈ s, 0 ≤ e.2) : 0 ≤ getW s t := by
  unfold getW
  cases hl : s.lookup t with
  | none => simp
  | some v =>
    rcases lookup_some_mem hl with ⟨k, hk⟩
    simpa using h (k, v) hk

theorem rowPx_nonneg {row : List (Ticker × Option ℚ)}
    (h : ∀ e ∈ row, ∀ q, e.2 = some q → 0 ≤ q) : PxNonneg (rowPx row) := by
  intro t q hq
  unfold rowPx at hq
  cases hl : row.lookup t with
  | none => rw [hl] at hq; simp at hq
  | some v =>
    rw [hl] at hq
    simp only [Option.getD_some] at hq
    rcases lookup_some_mem hl with ⟨k, hk⟩
    exact h (k, v) hk q hq

theorem pxGetD_nonneg {px : Ticker → Option ℚ} (hpx : PxNonneg px) (t : Ticker) :
    0 ≤ (px t).getD 0 := by
  cases hp : px t with
  | none => simp
  | some q => simpa using hpx t q hp

theorem holdingsValue_nonneg {cols : List Ticker} {units : Ticker → ℚ}
    {px : Ticker → Option ℚ} (hu : UnitsNonneg units) (hpx : PxNonneg px) :
    0 ≤ holdingsValue cols units px := by
  unfold holdingsValue
  apply List.sum_nonneg
  intro x hx
  rcases List.mem_map.mp hx with ⟨t, ht, rfl⟩
  exact mul_nonneg (hu t) (pxGetD_nonneg hpx t)

theorem unitsFor_nonneg {pre wt : ℚ} {p : Option ℚ} (hpre : 0 ≤ pre)
    (hwt : 0 ≤ wt) (hp : ∀ q, p = some q → 0 ≤ q) : 0 ≤ unitsFor pre wt p := by
  cases hc : p with
  | none => simp [unitsFor]
  | some q =>
    by_cases hq : q = 0
    · simp [unitsFor, hq]
    · simp only [unitsFor]
      rw [if_neg hq]
      exact div_nonneg (mul_nonneg hpre hwt) (hp q hc)

theorem applyEvent_nonneg {cols : List Ticker} {units : Ticker → ℚ} {pre : ℚ}
    {tw : List (Ticker × ℚ)} {px : Ticker → Option ℚ}
    (hu : UnitsNonneg units) (hpre : 0 ≤ pre) (htw : ∀ e ∈ tw, 0 ≤ e.2)
    (hpx : PxNonneg px) :
    UnitsNonneg (applyEvent cols units pre tw px).1 ∧
      0 ≤ (applyEvent cols units pre tw px).2 := by
  constructor
  · intro t
    unfold applyEvent
    by_cases ht : t ∈ cols
    · simp only [ht, if_true]
      exact unitsFor_nonneg hpre (getW_nonneg htw) (fun q hq => hpx t q hq)
    · simp only [ht, if_false]
      exact hu t
  · exact mul_nonneg hpre (getW_nonneg htw)

theorem stepEvents_nonneg {cols : List Ticker} {px : Ticker → Option ℚ}
    {date : Date} {pending : List WSnap} {units : Ticker → ℚ} {cash : ℚ} {n : ℕ}
    (hu : UnitsNonneg units) (hc : 0 ≤ cash) (hp : ∀ s ∈ pending, SnapNonneg s)
    (hpx : PxNonneg px) :
    UnitsNonneg (stepEvents cols px date pending units cash n).1 ∧
      0 ≤ (stepEvents cols px date pending units cash n).2.1 ∧
      (∀ s ∈ (stepEvents cols px date pending units cash n).2.2.1, SnapNonneg s) := by
  induction pending generalizing units cash n with
  | nil => exact ⟨hu, hc, by simp [stepEvents]⟩
  | cons e rest ih =>
    by_cases hdue : e.1 ≤ date
    · have hpre : 0 ≤ (if n = 0 then (100 : ℚ)
          else holdingsValue cols units px + cash) := by
        by_cases hn : n = 0
        · rw [if_pos hn]; norm_num
        · rw [if_neg hn]
          exact add_nonneg (holdingsValue_nonneg hu hpx) hc
      have happ := @applyEvent_nonneg cols units (if n = 0 then (100 : ℚ)
          else holdingsValue cols units px + cash) e.2 px hu hpre
        (hp e (List.mem_cons_self e rest)) hpx
      have hstep : stepEvents cols px date (e :: rest) units cash n =
          stepEvents cols px date rest
            (applyEvent cols units (if n = 0 then (100 : ℚ)
              else holdingsValue cols units px + cash) e.2 px).1
            (applyEvent cols units (if n = 0 then (100 : ℚ)
              else holdingsValue cols units px + cash) e.2 px).2 (n + 1) := by
        simp only [stepEvents, hdue, if_true]
      rw [hstep]
      exact ih happ.1 happ.2 (fun s hs => hp s (List.mem_cons_of_mem e hs))
    · have hstep : stepEvents cols px date (e :: rest) units cash n =
          (units, cash, e :: rest, n) := by
        simp only [stepEvents, hdue, if_false]
      rw [hstep]
      exact ⟨hu, hc, hp⟩

theorem selectRows_subset (ph : PriceHistory) (m? : Option Date) :
    ∀ r ∈ selectRows ph m?, r ∈ ph.rows := by
  intro r hr
  unfold selectRows at hr
  cases m? with
  | none => simp at hr
  | some m => exact List.mem_of_mem_filter hr

theorem sum_map_div {α : Type} (l : List α) (g : α → ℚ) (v : ℚ) :
    (l.map (fun x => g x / v)).sum = (l.map g).sum / v := by
  induction l with
  | nil => simp
  | cons a l' ih => simp [ih, add_div]

/-- Each recorded (performance row, weight row) pair of the dynamic loop
has nonnegative cash, and whenever the weight row is fully defined and the
value nonzero, the realized weights sum to `(value - cash) / value`. -/
theorem simLoop_row_property (cols : List Ticker)
    (rows : List (Date × List (Ticker × Option ℚ)))
    (units : Ticker → ℚ) (cash : ℚ) (pending : List WSnap) (n : ℕ)
    (hu : UnitsNonneg units) (hc : 0 ≤ cash)
    (hp : ∀ s ∈ pending, SnapNonneg s)
    (hrows : ∀ r ∈ rows, ∀ e ∈ r.2, ∀ q, e.2 = some q → 0 ≤ q) :
    ∀ pr ∈ (simLoop cols rows units cash pending n).1.zip
        (simLoop cols rows units cash pending n).2,
      0 ≤ pr.1.cash ∧
        ((∀ e ∈ pr.2, e.2.isSome = true) → pr.1.value ≠ 0 →
          (pr.2.map (fun e => e.2.getD 0)).sum =
            (pr.1.value - pr.1.cash) / pr.1.value) := by
  induction rows generalizing units cash pending n with
  | nil =>
    intro pr hpr
    simp [simLoop] at hpr
  | cons r rest ih =>
    intro pr hpr
    have hpx : PxNonneg (rowPx r.2) :=
      rowPx_nonneg (hrows r (List.mem_cons_self r rest))
    have hstep := @stepEvents_nonneg cols (rowPx r.2) r.1 pending units cash n
      hu hc hp hpx
    simp only [simLoop, List.zip_cons_cons] at hpr
    rcases List.mem_cons.mp hpr with heq | htail
    · subst heq
      set u' := (stepEvents cols (rowPx r.2) r.1 pending units cash n).1 with hu'
      set c' := (stepEvents cols (rowPx r.2) r.1 pending units cash n).2.1 with hc'
      set px := rowPx r.2 with hpxdef
      set v := holdingsValue cols u' px + c' with hv
      refine ⟨hstep.2.1, ?_⟩
      intro hall hvne
      have hA : ∀ t ∈ cols,
          (weightEntry (u' t) (px t) v).getD 0 = u' t * (px t).getD 0 / v := by
        intro t ht
        have hmem : (t, weightEntry (u' t) (px t) v) ∈
            cols.map (fun t => (t, weightEntry (u' t) (px t) v)) :=
          List.mem_map_of_mem _ ht
        have hsomet := hall _ hmem
        cases hpt : px t with
        | none =>
          exfalso
          rw [hpt] at hsomet
          simp [weightEntry] at hsomet
        | some q =>
          simp only [weightEntry, Option.getD_some]
          rw [if_neg hvne]
          rfl
      calc ((cols.map (fun t => (t, weightEntry (u' t) (px t) v))).map
              (fun e => e.2.getD 0)).sum
          = (cols.map (fun t => (weightEntry (u' t) (px t) v).getD 0)).sum := by
            rw [List.map_map]
            rfl
        _ = (cols.map (fun t => u' t * (px t).getD 0 / v)).sum := by
            rw [List.map_congr_left hA]
        _ = (cols.map (fun t => u' t * (px t).getD 0)).sum / v := by
            rw [sum_map_div]
        _ = (v - c') / v := by
            rw [hv]
            rw [add_sub_cancel_right]
            rfl
    · exact ih _ _ _ _ hstep.1 hstep.2.1 hstep.2.2
        (fun r2 h2 => hrows r2 (List.mem_cons_of_mem r h2)) pr htail

/-- C6 amended: in a successful dynamic run with nonnegative target weights
and nonnegative prices, every recorded date has nonnegative cash, and at
every date whose realized-weight row is fully defined (no NaN price, value
positive) the realized weights sum to at most 1, and that sum plus
cash over value equals exactly 1. -/
theorem c6_amended_weights_sum_to_one (w : WeightMatrix) (ph : PriceHistory)
    (out : List PerfRowI × List (List (Ticker × Option ℚ)))
    (hok : simulate_portfolio w ph = .ok out)
    (hwnn : ∀ s ∈ w.rows, ∀ e ∈ s.2, 0 ≤ e.2)
    (hpnn : ∀ r ∈ ph.rows, ∀ e ∈ r.2, ∀ q, e.2 = some q → 0 ≤ q) :
    ∀ pr ∈ out.1.zip out.2,
      0 ≤ pr.1.cash ∧
        ((∀ e ∈ pr.2, e.2.isSome = true) → 0 < pr.1.value →
          (pr.2.map (fun e => e.2.getD 0)).sum + pr.1.cash / pr.1.value = 1 ∧
            (pr.2.map (fun e => e.2.getD 0)).sum ≤ 1) := by
  rcases simulate_portfolio_ok_inv w ph out hok with ⟨rr, tl, hrec, hout⟩
  intro pr hpr
  have hzip : out.1.zip out.2 =
      (((simLoop (commonCols w.cols ph)
          (selectRows ph (minDate? (w.rows.map Prod.fst))) (fun _ => 0) 0 w.rows 0).1).zip
        ((simLoop (commonCols w.cols ph)
          (selectRows ph (minDate? (w.rows.map Prod.fst))) (fun _ => 0) 0 w.rows 0).2)).map
        (Prod.map (fun r =>
          (⟨r.date, r.value, r.cash, rebaseIndex r.value rr.value⟩ : PerfRowI)) id) := by
    rw [hout]
    rw [← hrec]
    exact List.zip_map_left _ _ _
  rw [hzip] at hpr
  rcases List.mem_map.mp hpr with ⟨q, hq, rfl⟩
  obtain ⟨q1, q2⟩ := q
  have hQ := simLoop_row_property (commonCols w.cols ph)
    (selectRows ph (minDate? (w.rows.map Prod.fst))) (fun _ => 0) 0 w.rows 0
    (fun t => le_refl 0) (le_refl 0) hwnn
    (fun r hr => hpnn r (selectRows_subset ph _ r hr)) (q1, q2) hq
  refine ⟨hQ.1, ?_⟩
  intro hall hvpos
  have hvpos' : 0 < q1.value := hvpos
  have hvne : q1.value ≠ 0 := ne_of_gt hvpos'
  have hall' : ∀ e ∈ q2, e.2.isSome = true := hall
  have hsum := hQ.2 hall' hvne
  constructor
  · show (q2.map (fun e => e.2.getD 0)).sum + q1.cash / q1.value = 1
    rw [hsum, div_add_div_same, sub_add_cancel, div_self hvne]
  · show (q2.map (fun e => e.2.getD 0)).sum ≤ 1
    rw [hsum, div_le_one hvpos']
    exact sub_le_self q1.value hQ.1

def c6W : WeightMatrix := ⟨["CCC", "CASH"], [(4, [("CCC", 1), ("CASH", 0)])]⟩

def c6P : PriceHistory := ⟨["CCC"], [(4, [("CCC", none)])]⟩

/-- C6 counterexample: on the recorded date (at and after the first
rebalance) the only realized-weight cell is NaN (`none`) and the portfolio
value is 0, so the claimed sum-to-one identity does not even denote: the
row is not a list of numbers and cash over value is 0/0. -/
theorem c6_counterexample :
    simulate_portfolio c6W c6P = .ok ([⟨4, 0, 0, none⟩], [[("CCC", none)]]) ∧
      (([("CCC", (none : Option ℚ))] : List (Ticker × Option ℚ)).all
        (fun e => e.2.isSome)) = false := by
  constructor
  · norm_num +decide [simulate_portfolio, simLoop, stepEvents, applyEvent, unitsFor,
      holdingsValue, getW, rowPx, weightEntry, rebaseIndex, commonCols, minDate?,
      selectRows, c6W, c6P, List.lookup, beq_string_eq_decide]
  · decide

def c6wW : WeightMatrix :=
  ⟨["AAA", "CASH"], [(1, [("AAA", 1/2), ("CASH", 1/2)])]⟩

def c6wP : PriceHistory :=
  ⟨["AAA"], [(1, [("AAA", some 10)]), (2, [("AAA", some 20)])]⟩

def c6wOut : List PerfRowI × List (List (Ticker × Option ℚ)) :=
  ([⟨1, 100, 50, some 100⟩, ⟨2, 150, 50, some 150⟩],
   [[("AAA", some (1/2))], [("AAA", some (2/3))]])

/-- Witness for the amended C6 on a 50/50 stock-cash run: on the first
date the realized weight 1/2 plus cash/value 50/100 is exactly 1. -/
theorem c6_amended_witness :
    simulate_portfolio c6wW c6wP = .ok c6wOut ∧
      ((([("AAA", some ((1 : ℚ)/2))] : List (Ticker × Option ℚ)).map
          (fun e => e.2.getD 0)).sum + (50 : ℚ) / 100 = 1 ∧
        (([("AAA", some ((1 : ℚ)/2))] : List (Ticker × Option ℚ)).map
          (fun e => e.2.getD 0)).sum ≤ 1) := by
  have hsim : simulate_portfolio c6wW c6wP = .ok c6wOut := by
    norm_num +decide [simulate_portfolio, simLoop, stepEvents, applyEvent, unitsFor,
      holdingsValue, getW, rowPx, weightEntry, rebaseIndex, commonCols, minDate?,
      selectRows, c6wW, c6wP, c6wOut, List.lookup, beq_string_eq_decide]
  refine ⟨hsim, ?_⟩
  have h := c6_amended_weights_sum_to_one c6wW c6wP c6wOut hsim
    (by
      norm_num [c6wW]
      rintro a b (⟨-, rfl⟩ | ⟨-, rfl⟩) <;> norm_num)
    (by norm_num [c6wP])
    (⟨1, 100, 50, some 100⟩, [("AAA", some (1/2))]) (by simp [c6wOut])
  exact h.2 (by simp) (by norm_num)

end MP
